import Mathlib

/-!
# goqux `select.go`: select options and keyset pagination

A shallow embedding of `select.go`.  The statement builder (`goqu.SelectDataset`)
and the expression values it consumes belong to the external `goqu` package; they
are represented here by plain records carrying the clauses that `select.go`
touches.  A Go panic (index out of range) is the `none` result of an option.
-/

namespace Goqux

/-! ## Expression values of the statement builder -/

/-- Table-qualified identifier (`exp.IdentifierExpression`): `goqu.T(name)` has no
column, `Col` attaches one. -/
structure IdentifierExpression where
  table : String
  col : Option String
  deriving DecidableEq, Repr

/-- The table identifier `goqu.T(name)`. -/
def T (name : String) : IdentifierExpression := ⟨name, none⟩

/-- The column reference `table.Col(c)`. -/
def IdentifierExpression.Col (t : IdentifierExpression) (c : String) : IdentifierExpression :=
  { t with col := some c }

/-- Sort direction of an ordering term. -/
inductive SortDirection where
  | asc
  | desc
  deriving DecidableEq, Repr

/-- Ordering term (`exp.OrderedExpression`). -/
structure OrderedExpression where
  sortExpression : IdentifierExpression
  direction : SortDirection
  deriving DecidableEq, Repr

/-- The term `ident.Asc()`. -/
def IdentifierExpression.Asc (i : IdentifierExpression) : OrderedExpression := ⟨i, .asc⟩

/-- The term `ident.Desc()`. -/
def IdentifierExpression.Desc (i : IdentifierExpression) : OrderedExpression := ⟨i, .desc⟩

/-- Operator of an expression list (`exp.AndType`, `exp.OrType`). -/
inductive ExpressionListType where
  | andType
  | orType
  deriving DecidableEq, Repr

/-- Boolean expressions (`exp.Expression`) over literal values of type `V`
(Go `any`): the comparisons `Eq`, `Gt`, `Lt` of a column against a literal and
the expression lists built by `goqu.And` / `goqu.Or`. -/
inductive Expression (V : Type) where
  | eq (lhs : IdentifierExpression) (rhs : V)
  | gt (lhs : IdentifierExpression) (rhs : V)
  | lt (lhs : IdentifierExpression) (rhs : V)
  | list (op : ExpressionListType) (exps : List (Expression V))

/-- The comparison `ident.Eq(v)`. -/
def IdentifierExpression.Eq {V : Type} (i : IdentifierExpression) (v : V) : Expression V := .eq i v

/-- The comparison `ident.Gt(v)`. -/
def IdentifierExpression.Gt {V : Type} (i : IdentifierExpression) (v : V) : Expression V := .gt i v

/-- The comparison `ident.Lt(v)`. -/
def IdentifierExpression.Lt {V : Type} (i : IdentifierExpression) (v : V) : Expression V := .lt i v

/-- The conjunction `goqu.And(exps...)`. -/
def And {V : Type} (exps : List (Expression V)) : Expression V := .list .andType exps

/-- The disjunction `goqu.Or(exps...)`. -/
def Or {V : Type} (exps : List (Expression V)) : Expression V := .list .orType exps

/-- The test `IsEmpty` of the statement builder: an expression list without
members is empty, a comparison never is. -/
def Expression.IsEmpty {V : Type} : Expression V → Bool
  | .list _ [] => true
  | _ => false

mutual
/-- Truth value of an expression on a row: `Eq` is equality, `Gt` / `Lt` are the
strict order of the value type, an `And` list is a conjunction and an `Or` list a
disjunction. -/
def Expression.eval {V : Type} [LinearOrder V] (row : IdentifierExpression → V) :
    Expression V → Bool
  | .eq l r => decide (row l = r)
  | .gt l r => decide (r < row l)
  | .lt l r => decide (row l < r)
  | .list .andType es => Expression.evalAll row es
  | .list .orType es => Expression.evalAny row es
/-- Conjunction of the truth values of a list of expressions. -/
def Expression.evalAll {V : Type} [LinearOrder V] (row : IdentifierExpression → V) :
    List (Expression V) → Bool
  | [] => true
  | e :: es => Expression.eval row e && Expression.evalAll row es
/-- Disjunction of the truth values of a list of expressions. -/
def Expression.evalAny {V : Type} [LinearOrder V] (row : IdentifierExpression → V) :
    List (Expression V) → Bool
  | [] => false
  | e :: es => Expression.eval row e || Expression.evalAny row es
end

/-! ## The statement builder -/

/-- Element of a select list: a column reference or `goqu.Star()`. -/
inductive SelectColumn where
  | ident (i : IdentifierExpression)
  | star
  deriving DecidableEq, Repr

/-- Kind of a join clause. -/
inductive JoinType where
  | innerJoin
  | leftJoin
  deriving DecidableEq, Repr

/-- Join condition (`exp.JoinCondition`): `goqu.On(exps...)` or `goqu.Using(cols...)`. -/
inductive JoinCondition (V : Type) where
  | On (exps : List (Expression V))
  | Using (cols : List String)

/-- One join clause of a statement. -/
structure JoinExpression (V : Type) where
  joinType : JoinType
  table : IdentifierExpression
  condition : JoinCondition V

/-- Clauses of a select statement (`goqu.SelectDataset`), the external statement
builder.  `where_` is the list of conjuncts of the WHERE clause.  `limit` and
`offset` are unsigned, and zero stands for an absent clause: this is how the
builder itself reads `Limit(0)` and what `ClearOffset` stores. -/
structure SelectDataset (V : Type) where
  dialect : String
  selectCols : List SelectColumn
  from_ : List IdentifierExpression
  joins : List (JoinExpression V)
  where_ : List (Expression V)
  order : List OrderedExpression
  limit : Nat
  offset : Nat

namespace SelectDataset

variable {V : Type}

/-- The empty statement of a dialect, `goqu.Dialect(dialect)`. -/
def Dialect (dialect : String) : SelectDataset V :=
  { dialect := dialect, selectCols := [], from_ := [], joins := [], where_ := [],
    order := [], limit := 0, offset := 0 }

/-- Builder method `Where`: the expressions are added to the WHERE conjuncts,
except the expression lists without members (such as `goqu.Or()`), which the
builder drops. -/
def Where (s : SelectDataset V) (exps : List (Expression V)) : SelectDataset V :=
  { s with where_ := s.where_ ++ exps.filter (fun e => !e.IsEmpty) }

/-- Builder method `WithDialect`. -/
def WithDialect (s : SelectDataset V) (dialect : String) : SelectDataset V :=
  { s with dialect := dialect }

/-- Builder method `Limit`: sets the LIMIT. -/
def Limit (s : SelectDataset V) (limit : Nat) : SelectDataset V :=
  { s with limit := limit }

/-- Builder method `Offset`: sets the OFFSET. -/
def Offset (s : SelectDataset V) (offset : Nat) : SelectDataset V :=
  { s with offset := offset }

/-- Builder method `ClearOffset`: removes the OFFSET. -/
def ClearOffset (s : SelectDataset V) : SelectDataset V :=
  { s with offset := 0 }

/-- Builder method `Order`: replaces the ORDER BY list. -/
def Order (s : SelectDataset V) (order : List OrderedExpression) : SelectDataset V :=
  { s with order := order }

/-- Builder method `Select`: replaces the select list; called with no column it
clears the selection, which leaves `*` as the select list. -/
def Select (s : SelectDataset V) (cols : List SelectColumn) : SelectDataset V :=
  match cols with
  | [] => { s with selectCols := [SelectColumn.star] }
  | c :: cs => { s with selectCols := c :: cs }

/-- Builder method `From`: sets the source tables. -/
def From (s : SelectDataset V) (table : IdentifierExpression) : SelectDataset V :=
  { s with from_ := [table] }

/-- Builder method `InnerJoin`: appends an inner join. -/
def InnerJoin (s : SelectDataset V) (table : IdentifierExpression) (condition : JoinCondition V) :
    SelectDataset V :=
  { s with joins := s.joins ++ [⟨.innerJoin, table, condition⟩] }

/-- Builder method `LeftJoin`: appends a left join. -/
def LeftJoin (s : SelectDataset V) (table : IdentifierExpression) (condition : JoinCondition V) :
    SelectDataset V :=
  { s with joins := s.joins ++ [⟨.leftJoin, table, condition⟩] }

end SelectDataset

/-! ## `select.go` -/

/-- An option: a statement transform that also reads the table identifier.  The
result `none` is a Go panic raised while the option runs. -/
abbrev SelectOption (V : Type) := IdentifierExpression → SelectDataset V → Option (SelectDataset V)

section Options

variable {V : Type}

/-- `WithSelectFilters(filters...)`. -/
def WithSelectFilters (filters : List (Expression V)) : SelectOption V :=
  fun _ s => some (s.Where filters)

/-- `WithSelectDialect(dialect)`. -/
def WithSelectDialect (dialect : String) : SelectOption V :=
  fun _ s => some (s.WithDialect dialect)

/-- `WithSelectLimit(limit)`. -/
def WithSelectLimit (limit : Nat) : SelectOption V :=
  fun _ s => some (s.Limit limit)

/-- `WithSelectOffset(offset)`. -/
def WithSelectOffset (offset : Nat) : SelectOption V :=
  fun _ s => some (s.Offset offset)

/-- First-page loop of `WithKeySet` (`for _, c := range columns`): one ordering
term per column is appended to `orderby`. -/
def orderLoop (table : IdentifierExpression) (desc : Bool) :
    List String → List OrderedExpression → List OrderedExpression
  | [], orderby => orderby
  | c :: cs, orderby =>
    if desc then orderLoop table desc cs (orderby ++ [(table.Col c).Desc])
    else orderLoop table desc cs (orderby ++ [(table.Col c).Asc])

/-- Inner loop of `WithKeySet` (`for j := 0; j < i; j++`), started at `j = 0` with
`remaining = i` iterations to go: slot `j` of `currentConditions` receives
`table.Col(columns[j]).Eq(values[j])`.  An index out of range is `none`. -/
def eqLoop (table : IdentifierExpression) (columns : List String) (values : List V) :
    (remaining : Nat) → (j : Nat) → List (Expression V) → Option (List (Expression V))
  | 0, _, currentConditions => some currentConditions
  | remaining + 1, j, currentConditions =>
    match columns[j]? with
    | none => none
    | some c =>
      match values[j]? with
      | none => none
      | some v =>
        eqLoop table columns values remaining (j + 1) (currentConditions ++ [(table.Col c).Eq v])

/-- Outer loop of `WithKeySet` (`for i := 0; i < len(columns); i++`), started at
`i = 0` with `remaining = len(columns)` iterations to go.  Each iteration fills
`currentConditions` (the equalities of `eqLoop`, then the strict inequality on
column `i`), appends the ordering term of column `i` to `orderby` and the AND
group to `conditions`.  An index out of range is `none`. -/
def keySetLoop (table : IdentifierExpression) (columns : List String) (values : List V)
    (desc : Bool) :
    (remaining : Nat) → (i : Nat) → List (Expression V) → List OrderedExpression →
      Option (List (Expression V) × List OrderedExpression)
  | 0, _, conditions, orderby => some (conditions, orderby)
  | remaining + 1, i, conditions, orderby =>
    match eqLoop table columns values i 0 [] with
    | none => none
    | some eqs =>
      match columns[i]? with
      | none => none
      | some c =>
        let tc := table.Col c
        match values[i]? with
        | none => none
        | some v =>
          if desc then
            keySetLoop table columns values desc remaining (i + 1)
              (conditions ++ [And (eqs ++ [tc.Lt v])]) (orderby ++ [tc.Desc])
          else
            keySetLoop table columns values desc remaining (i + 1)
              (conditions ++ [And (eqs ++ [tc.Gt v])]) (orderby ++ [tc.Asc])

/-- `WithKeySet(columns, values, desc)`; `values = none` is the Go `nil` slice. -/
def WithKeySet (columns : List String) (values : Option (List V)) (desc : Bool) : SelectOption V :=
  fun table s =>
    match values with
    | none => some (s.Order (orderLoop table desc columns []))
    | some vs =>
      match keySetLoop table columns vs desc columns.length 0 [] [] with
      | none => none
      | some (conditions, orderby) =>
        some (((s.Where [Or conditions]).Order orderby).ClearOffset)

/-- `WithSelectOrder(order...)`. -/
def WithSelectOrder (order : List OrderedExpression) : SelectOption V :=
  fun _ s => some (s.Order order)

/-- `WithSelectStar()`. -/
def WithSelectStar : SelectOption V :=
  fun _ s => some (s.Select [SelectColumn.star])

/-- A join to fold into the statement (`JoinOp`). -/
structure JoinOp (V : Type) where
  Table : String
  On : JoinCondition V

/-- Descriptor of a selection struct (the type parameter `T` of the join
selections): the top-level fields in declared order, each with its own fields in
declared order. -/
abbrev SelectionStruct := List (String × List String)

/-- Modelled from the spec: the resolver `getSelectionFieldsFromSelectionStruct`
is not part of `select.go`.  Each top-level field of the descriptor denotes a
table and each of its own fields a column on that table; the resolved columns
follow the declared field order. -/
def getSelectionFieldsFromSelectionStruct (d : SelectionStruct) : List IdentifierExpression :=
  d.flatMap (fun f => f.2.map (fun c => (T f.1).Col c))

/-- Loop `for _, j := range op { s = s.InnerJoin(goqu.T(j.Table), j.On) }`. -/
def innerJoinLoop : List (JoinOp V) → SelectDataset V → SelectDataset V
  | [], s => s
  | j :: op, s => innerJoinLoop op (s.InnerJoin (T j.Table) j.On)

/-- Loop `for _, j := range op { s = s.LeftJoin(goqu.T(j.Table), j.On) }`. -/
def leftJoinLoop : List (JoinOp V) → SelectDataset V → SelectDataset V
  | [], s => s
  | j :: op, s => leftJoinLoop op (s.LeftJoin (T j.Table) j.On)

/-- Loop `for _, c := range cols { selectFields = append(selectFields, c) }`. -/
def appendFields : List IdentifierExpression → List SelectColumn → List SelectColumn
  | [], selectFields => selectFields
  | c :: cs, selectFields => appendFields cs (selectFields ++ [SelectColumn.ident c])

/-- `WithInnerJoinSelection[T](op...)`. -/
def WithInnerJoinSelection (T : SelectionStruct) (op : List (JoinOp V)) : SelectOption V :=
  fun _ s =>
    let s := innerJoinLoop op s
    let selectFields := appendFields (getSelectionFieldsFromSelectionStruct T) []
    some (s.Select selectFields)

/-- `WithLeftJoinSelection[T](op...)`. -/
def WithLeftJoinSelection (T : SelectionStruct) (op : List (JoinOp V)) : SelectOption V :=
  fun _ s =>
    let s := leftJoinLoop op s
    let selectFields := appendFields (getSelectionFieldsFromSelectionStruct T) []
    some (s.Select selectFields)

/-- Field of a destination struct: its column name and the option tags it carries. -/
structure StructField where
  column : String
  tags : List String
  deriving DecidableEq, Repr

/-- Modelled from the spec: the tag constant `skipSelect` is not part of
`select.go`; it marks a field to be skipped from selection. -/
def skipSelect : String := "skip_select"

/-- Modelled from the spec: the resolver `getColumnsFromStruct` is not part of
`select.go`.  It yields the table-qualified column of every field of the
destination descriptor, in declared order, excluding the fields that carry the
skip tag. -/
def getColumnsFromStruct (table : IdentifierExpression) (dst : List StructField)
    (skipTag : String) : List IdentifierExpression :=
  (dst.filter (fun f => !(f.tags.contains skipTag))).map (fun f => table.Col f.column)

/-- Loop `for _, o := range options { selectQuery = o(table, selectQuery) }`; a
panic of an option ends the build. -/
def applyOptions (table : IdentifierExpression) :
    List (SelectOption V) → SelectDataset V → Option (SelectDataset V)
  | [], selectQuery => some selectQuery
  | o :: options, selectQuery =>
    match o table selectQuery with
    | none => none
    | some selectQuery => applyOptions table options selectQuery

/-- `BuildSelectDataset[T](tableName, dst, options...)`.  The package variable
`defaultDialect` is not part of `select.go` and is taken as an argument. -/
def BuildSelectDataset (defaultDialect : String) (tableName : String) (dst : List StructField)
    (options : List (SelectOption V)) : Option (SelectDataset V) :=
  let table := T tableName
  let structCols := appendFields (getColumnsFromStruct table dst skipSelect) []
  let selectQuery := ((SelectDataset.Dialect defaultDialect).Select structCols).From table
  applyOptions table options selectQuery

/-- `BuildSelect[T](tableName, dst, options...)`.  The render step `ToSQL` of the
statement builder is external and taken as an argument; `R` is its result (SQL
text, parameters, error). -/
def BuildSelect {R : Type} (ToSQL : SelectDataset V → R) (defaultDialect : String)
    (tableName : String) (dst : List StructField) (options : List (SelectOption V)) : Option R :=
  let table := T tableName
  let structCols := appendFields (getColumnsFromStruct table dst skipSelect) []
  let selectQuery := ((SelectDataset.Dialect defaultDialect).Select structCols).From table
  match applyOptions table options selectQuery with
  | none => none
  | some selectQuery => some (ToSQL selectQuery)

end Options

/-! ## Closed forms of the loops -/

section ClosedForms

variable {V : Type}

/-- Ordering term of a cursor column: descending when `desc`, ascending otherwise. -/
def orderTerm (table : IdentifierExpression) (desc : Bool) (c : String) : OrderedExpression :=
  if desc then (table.Col c).Desc else (table.Col c).Asc

/-- Strict inequality of a cursor column against its boundary value: `Lt` when
`desc`, `Gt` otherwise. -/
def strictTerm (table : IdentifierExpression) (desc : Bool) (c : String) (v : V) : Expression V :=
  if desc then (table.Col c).Lt v else (table.Col c).Gt v

/-- Equality of a cursor column with its boundary value. -/
def eqTerm (table : IdentifierExpression) (p : String × V) : Expression V :=
  (table.Col p.1).Eq p.2

/-- The AND groups of the keyset predicate over the remaining (column, value)
pairs, `eqs` being the equalities on the pairs already passed: the group of the
first pair is `eqs` followed by its strict inequality, the later groups extend
`eqs` by its equality. -/
def lexGroups (table : IdentifierExpression) (desc : Bool) :
    List (Expression V) → List (String × V) → List (Expression V)
  | _, [] => []
  | eqs, p :: rest =>
    And (eqs ++ [strictTerm table desc p.1 p.2]) ::
      lexGroups table desc (eqs ++ [eqTerm table p]) rest

theorem orderLoop_eq (table : IdentifierExpression) (desc : Bool) (columns : List String)
    (orderby : List OrderedExpression) :
    orderLoop table desc columns orderby = orderby ++ columns.map (orderTerm table desc) := by
  induction columns generalizing orderby with
  | nil => simp [orderLoop]
  | cons c cs ih =>
    cases desc <;> simp [orderLoop, ih, orderTerm]

theorem eqLoop_eq (table : IdentifierExpression) (columns : List String) (values : List V)
    (k j : Nat) (cur : List (Expression V))
    (hc : j + k ≤ columns.length) (hv : j + k ≤ values.length) :
    eqLoop table columns values k j cur
      = some (cur ++ (((columns.zip values).drop j).take k).map (eqTerm table)) := by
  induction k generalizing j cur with
  | zero => simp [eqLoop]
  | succ k ih =>
    have hjc : j < columns.length := by omega
    have hjv : j < values.length := by omega
    have hz : j < (columns.zip values).length := by simp; omega
    have hd : (columns.zip values).drop j
        = (columns[j], values[j]) :: (columns.zip values).drop (j + 1) := by
      rw [List.drop_eq_getElem_cons hz]; simp
    simp only [eqLoop, List.getElem?_eq_getElem hjc, List.getElem?_eq_getElem hjv]
    rw [ih (j + 1) _ (by omega) (by omega), hd]
    simp [eqTerm]

theorem keySetLoop_eq (table : IdentifierExpression) (columns : List String) (values : List V)
    (desc : Bool) (hlen : values.length = columns.length)
    (k i : Nat) (conditions : List (Expression V)) (orderby : List OrderedExpression)
    (hk : i + k = columns.length) :
    keySetLoop table columns values desc k i conditions orderby
      = some (conditions ++ lexGroups table desc (((columns.zip values).take i).map (eqTerm table))
                ((columns.zip values).drop i),
              orderby ++ (columns.drop i).map (orderTerm table desc)) := by
  induction k generalizing i conditions orderby with
  | zero =>
    have hi : i = columns.length := by omega
    have hz : (columns.zip values).drop i = [] := by
      apply List.drop_of_length_le; simp; omega
    have hcd : columns.drop i = [] := List.drop_of_length_le (by omega)
    simp [keySetLoop, hz, hcd, lexGroups]
  | succ k ih =>
    have hic : i < columns.length := by omega
    have hiv : i < values.length := by omega
    have hz : i < (columns.zip values).length := by simp; omega
    have hd : (columns.zip values).drop i
        = (columns[i], values[i]) :: (columns.zip values).drop (i + 1) := by
      rw [List.drop_eq_getElem_cons hz]; simp
    have ht : (columns.zip values).take (i + 1)
        = (columns.zip values).take i ++ [(columns[i], values[i])] := by
      rw [List.take_succ, List.getElem?_eq_getElem hz]; simp
    have hcd : columns.drop i = columns[i] :: columns.drop (i + 1) :=
      List.drop_eq_getElem_cons hic
    have he := eqLoop_eq table columns values i 0 [] (by omega) (by omega)
    simp only [List.drop_zero, List.nil_append] at he
    simp only [keySetLoop, he, List.getElem?_eq_getElem hic, List.getElem?_eq_getElem hiv]
    rw [hd, hcd]
    cases desc
    · rw [if_neg (by decide), ih (i + 1) _ _ (by omega), ht]
      simp only [lexGroups, strictTerm, orderTerm, eqTerm, List.map_append, List.map_cons,
        List.map_nil, List.append_assoc, List.singleton_append, Bool.false_eq_true, if_false]
    · rw [if_pos rfl, ih (i + 1) _ _ (by omega), ht]
      simp only [lexGroups, strictTerm, orderTerm, eqTerm, List.map_append, List.map_cons,
        List.map_nil, List.append_assoc, List.singleton_append, if_true]

/-- With a boundary as long as the column list the option returns: the keyset
disjunction is passed to `Where`, the ORDER BY is one term per column and the
offset is cleared. -/
theorem withKeySet_some (columns : List String) (values : List V) (desc : Bool)
    (hlen : values.length = columns.length) (table : IdentifierExpression) (s : SelectDataset V) :
    WithKeySet columns (some values) desc table s
      = some (((s.Where [Or (lexGroups table desc [] (columns.zip values))]).Order
          (columns.map (orderTerm table desc))).ClearOffset) := by
  have h := keySetLoop_eq table columns values desc hlen columns.length 0 [] [] (by omega)
  simp only [List.take_zero, List.map_nil, List.drop_zero, List.nil_append] at h
  simp [WithKeySet, h]

/-- Without a boundary the option only sets the ORDER BY. -/
theorem withKeySet_none (columns : List String) (desc : Bool)
    (table : IdentifierExpression) (s : SelectDataset V) :
    WithKeySet columns (none : Option (List V)) desc table s
      = some (s.Order (columns.map (orderTerm table desc))) := by
  simp [WithKeySet, orderLoop_eq]

/-- With at least one column and a boundary covering the columns, `Where` keeps
the keyset disjunction: it has a group, so it is not an empty list. -/
theorem where_keyset (s : SelectDataset V) (table : IdentifierExpression) (desc : Bool)
    (columns : List String) (values : List V)
    (hN : 1 ≤ columns.length) (hle : columns.length ≤ values.length) :
    (s.Where [Or (lexGroups table desc [] (columns.zip values))]).where_
      = s.where_ ++ [Or (lexGroups table desc [] (columns.zip values))] := by
  cases columns with
  | nil => simp at hN
  | cons c cs =>
    cases values with
    | nil => simp at hle
    | cons v vs => simp [SelectDataset.Where, lexGroups, Or, Expression.IsEmpty]

/-- With no column the keyset disjunction is `goqu.Or()`, which `Where` drops. -/
theorem where_keyset_nil (s : SelectDataset V) (table : IdentifierExpression) (desc : Bool)
    (values : List V) :
    (s.Where [Or (lexGroups table desc [] (([] : List String).zip values))]).where_
      = s.where_ := by
  simp [SelectDataset.Where, lexGroups, Or, Expression.IsEmpty]

theorem zip_map_snd (columns : List String) (values : List V)
    (hlen : values.length = columns.length) :
    (columns.zip values).map Prod.snd = values := by
  induction columns generalizing values with
  | nil =>
    cases values with
    | nil => rfl
    | cons v vs => simp at hlen
  | cons c cs ih =>
    cases values with
    | nil => simp at hlen
    | cons v vs => simp at hlen; simp [ih vs hlen]

theorem zip_map_fst {β : Type} (f : String → β) (columns : List String) (values : List V)
    (hlen : values.length = columns.length) :
    (columns.zip values).map (fun p => f p.1) = columns.map f := by
  induction columns generalizing values with
  | nil => simp
  | cons c cs ih =>
    cases values with
    | nil => simp at hlen
    | cons v vs => simp at hlen; simp [ih vs hlen]

theorem lexGroups_length (table : IdentifierExpression) (desc : Bool)
    (eqs : List (Expression V)) (kv : List (String × V)) :
    (lexGroups table desc eqs kv).length = kv.length := by
  induction kv generalizing eqs with
  | nil => rfl
  | cons p rest ih => simp [lexGroups, ih]

theorem lexGroups_getElem? (table : IdentifierExpression) (desc : Bool)
    (eqs : List (Expression V)) (kv : List (String × V)) (i : Nat) (hi : i < kv.length) :
    (lexGroups table desc eqs kv)[i]?
      = some (And (eqs ++ (kv.take i).map (eqTerm table)
          ++ [strictTerm table desc kv[i].1 kv[i].2])) := by
  induction kv generalizing eqs i with
  | nil => simp at hi
  | cons p rest ih =>
    cases i with
    | zero => simp [lexGroups]
    | succ i =>
      have hi' : i < rest.length := by simpa using hi
      simp [lexGroups, ih _ i hi']

theorem appendFields_eq (cols : List IdentifierExpression) (selectFields : List SelectColumn) :
    appendFields cols selectFields = selectFields ++ cols.map SelectColumn.ident := by
  induction cols generalizing selectFields with
  | nil => simp [appendFields]
  | cons c cs ih => simp [appendFields, ih]

theorem innerJoinLoop_eq (op : List (JoinOp V)) (s : SelectDataset V) :
    innerJoinLoop op s
      = { s with joins := s.joins ++ op.map (fun j => ⟨.innerJoin, T j.Table, j.On⟩) } := by
  induction op generalizing s with
  | nil => simp [innerJoinLoop]
  | cons j op ih => simp [innerJoinLoop, ih, SelectDataset.InnerJoin]

theorem leftJoinLoop_eq (op : List (JoinOp V)) (s : SelectDataset V) :
    leftJoinLoop op s
      = { s with joins := s.joins ++ op.map (fun j => ⟨.leftJoin, T j.Table, j.On⟩) } := by
  induction op generalizing s with
  | nil => simp [leftJoinLoop]
  | cons j op ih => simp [leftJoinLoop, ih, SelectDataset.LeftJoin]

theorem select_eq (s : SelectDataset V) (cols : List SelectColumn) :
    s.Select cols
      = { s with selectCols := if cols = [] then [SelectColumn.star] else cols } := by
  cases cols <;> simp [SelectDataset.Select]

theorem withInnerJoinSelection_eq (D : SelectionStruct) (op : List (JoinOp V))
    (table : IdentifierExpression) (s : SelectDataset V) :
    WithInnerJoinSelection D op table s
      = some { s with
          joins := s.joins ++ op.map (fun j => ⟨JoinType.innerJoin, T j.Table, j.On⟩),
          selectCols :=
            if (getSelectionFieldsFromSelectionStruct D).map SelectColumn.ident = []
            then [SelectColumn.star]
            else (getSelectionFieldsFromSelectionStruct D).map SelectColumn.ident } := by
  simp only [WithInnerJoinSelection, innerJoinLoop_eq, appendFields_eq, select_eq,
    List.nil_append]

theorem withLeftJoinSelection_eq (D : SelectionStruct) (op : List (JoinOp V))
    (table : IdentifierExpression) (s : SelectDataset V) :
    WithLeftJoinSelection D op table s
      = some { s with
          joins := s.joins ++ op.map (fun j => ⟨JoinType.leftJoin, T j.Table, j.On⟩),
          selectCols :=
            if (getSelectionFieldsFromSelectionStruct D).map SelectColumn.ident = []
            then [SelectColumn.star]
            else (getSelectionFieldsFromSelectionStruct D).map SelectColumn.ident } := by
  simp only [WithLeftJoinSelection, leftJoinLoop_eq, appendFields_eq, select_eq,
    List.nil_append]

theorem applyOptions_append (table : IdentifierExpression) (opts : List (SelectOption V))
    (o : SelectOption V) (s : SelectDataset V) :
    applyOptions table (opts ++ [o]) s = (applyOptions table opts s).bind (o table) := by
  induction opts generalizing s with
  | nil =>
    simp only [List.nil_append, applyOptions, Option.some_bind]
    cases o table s <;> rfl
  | cons o' opts ih =>
    simp only [List.cons_append, applyOptions]
    cases o' table s with
    | none => rfl
    | some s' => exact ih s'

theorem applyOptions_eq_foldl (table : IdentifierExpression) (opts : List (SelectOption V))
    (s : SelectDataset V) :
    applyOptions table opts s
      = opts.foldl (fun acc o => acc.bind (o table)) (some s) := by
  induction opts using List.reverseRecOn with
  | nil => rfl
  | append_singleton opts o ih => rw [applyOptions_append, ih, List.foldl_append]; rfl

end ClosedForms

/-! ## Meaning of the keyset predicate -/

section Semantics

variable {V : Type} [LinearOrder V]

theorem evalAll_append (row : IdentifierExpression → V) (xs ys : List (Expression V)) :
    Expression.evalAll row (xs ++ ys)
      = (Expression.evalAll row xs && Expression.evalAll row ys) := by
  induction xs with
  | nil => simp [Expression.evalAll]
  | cons x xs ih => simp [Expression.evalAll, ih, Bool.and_assoc]

theorem lex_cons_cons_iff {α : Type} (r : α → α → Prop) (a b : α) (l₁ l₂ : List α) :
    List.Lex r (a :: l₁) (b :: l₂) ↔ r a b ∨ (a = b ∧ List.Lex r l₁ l₂) := by
  constructor
  · intro h
    cases h with
    | cons h => exact Or.inr ⟨rfl, h⟩
    | rel h => exact Or.inl h
  · rintro (h | ⟨rfl, h⟩)
    · exact List.Lex.rel h
    · exact List.Lex.cons h

/-- Ascending groups: some group holds on the row iff the equalities already
passed hold and the remaining boundary values are lexicographically below the
remaining row values. -/
theorem evalAny_lexGroups_asc (row : IdentifierExpression → V) (table : IdentifierExpression)
    (eqs : List (Expression V)) (kv : List (String × V)) :
    Expression.evalAny row (lexGroups table false eqs kv) = true ↔
      Expression.evalAll row eqs = true ∧
        List.Lex (· < ·) (kv.map Prod.snd) (kv.map (fun p => row (table.Col p.1))) := by
  induction kv generalizing eqs with
  | nil =>
    simp only [lexGroups, Expression.evalAny, List.map_nil]
    constructor
    · intro h; cases h
    · rintro ⟨_, h⟩; cases h
  | cons p rest ih =>
    simp only [lexGroups, Expression.evalAny, Bool.or_eq_true, ih, List.map_cons,
      lex_cons_cons_iff, Expression.eval, And, evalAll_append, Bool.and_eq_true, strictTerm,
      eqTerm, IdentifierExpression.Gt, IdentifierExpression.Eq, Expression.evalAll,
      decide_eq_true_eq, Bool.false_eq_true, if_false, Bool.and_true]
    constructor
    · rintro (⟨h1, h2⟩ | ⟨⟨h1, h2⟩, h3⟩)
      · exact ⟨h1, Or.inl h2⟩
      · exact ⟨h1, Or.inr ⟨h2.symm, h3⟩⟩
    · rintro ⟨h1, h2 | ⟨h2, h3⟩⟩
      · exact Or.inl ⟨h1, h2⟩
      · exact Or.inr ⟨⟨h1, h2.symm⟩, h3⟩

/-- Descending groups: some group holds on the row iff the equalities already
passed hold and the remaining row values are lexicographically below the
remaining boundary values. -/
theorem evalAny_lexGroups_desc (row : IdentifierExpression → V) (table : IdentifierExpression)
    (eqs : List (Expression V)) (kv : List (String × V)) :
    Expression.evalAny row (lexGroups table true eqs kv) = true ↔
      Expression.evalAll row eqs = true ∧
        List.Lex (· < ·) (kv.map (fun p => row (table.Col p.1))) (kv.map Prod.snd) := by
  induction kv generalizing eqs with
  | nil =>
    simp only [lexGroups, Expression.evalAny, List.map_nil]
    constructor
    · intro h; cases h
    · rintro ⟨_, h⟩; cases h
  | cons p rest ih =>
    simp only [lexGroups, Expression.evalAny, Bool.or_eq_true, ih, List.map_cons,
      lex_cons_cons_iff, Expression.eval, And, evalAll_append, Bool.and_eq_true, strictTerm,
      eqTerm, IdentifierExpression.Lt, IdentifierExpression.Eq, Expression.evalAll,
      decide_eq_true_eq, if_true, Bool.and_true]
    constructor
    · rintro (⟨h1, h2⟩ | ⟨⟨h1, h2⟩, h3⟩)
      · exact ⟨h1, Or.inl h2⟩
      · exact ⟨h1, Or.inr ⟨h2, h3⟩⟩
    · rintro ⟨h1, h2 | ⟨h2, h3⟩⟩
      · exact Or.inl ⟨h1, h2⟩
      · exact Or.inr ⟨⟨h1, h2⟩, h3⟩

end Semantics

/-! ## Keyset pagination: the predicate -/

section KeysetPredicate

variable {V : Type} [LinearOrder V]

/-- C1: with `desc = false`, at least one column and a boundary as long as the
column list, the option returns a statement whose WHERE gained exactly one
conjunct, and that conjunct is true on a row iff the boundary tuple is
lexicographically strictly below the row's tuple on the cursor columns (the row
is strictly after the boundary). -/
theorem withKeySet_asc_iff_lex_gt (columns : List String) (values : List V)
    (hN : 1 ≤ columns.length)
    (hlen : values.length = columns.length) (table : IdentifierExpression)
    (s : SelectDataset V) (row : IdentifierExpression → V) :
    ∃ p s', WithKeySet columns (some values) false table s = some s' ∧
      s'.where_ = s.where_ ++ [p] ∧
      (p.eval row = true ↔
        List.Lex (· < ·) values (columns.map (fun c => row (table.Col c)))) := by
  refine ⟨Or (lexGroups table false [] (columns.zip values)), _,
    withKeySet_some columns values false hlen table s,
    where_keyset s table false columns values hN (by omega), ?_⟩
  have h := evalAny_lexGroups_asc row table [] (columns.zip values)
  rw [zip_map_snd columns values hlen,
    zip_map_fst (fun c => row (table.Col c)) columns values hlen] at h
  simpa [Or, Expression.eval, Expression.evalAll] using h

/-- C2: with `desc = true`, at least one column and a boundary as long as the
column list, the option returns a statement whose WHERE gained exactly one
conjunct, and that conjunct is true on a row iff the row's tuple on the cursor
columns is lexicographically strictly below the boundary tuple (the row is
strictly before the boundary). -/
theorem withKeySet_desc_iff_lex_lt (columns : List String) (values : List V)
    (hN : 1 ≤ columns.length)
    (hlen : values.length = columns.length) (table : IdentifierExpression)
    (s : SelectDataset V) (row : IdentifierExpression → V) :
    ∃ p s', WithKeySet columns (some values) true table s = some s' ∧
      s'.where_ = s.where_ ++ [p] ∧
      (p.eval row = true ↔
        List.Lex (· < ·) (columns.map (fun c => row (table.Col c))) values) := by
  refine ⟨Or (lexGroups table true [] (columns.zip values)), _,
    withKeySet_some columns values true hlen table s,
    where_keyset s table true columns values hN (by omega), ?_⟩
  have h := evalAny_lexGroups_desc row table [] (columns.zip values)
  rw [zip_map_snd columns values hlen,
    zip_map_fst (fun c => row (table.Col c)) columns values hlen] at h
  simpa [Or, Expression.eval, Expression.evalAll] using h

/-- C1 at columns `[a, b]`, boundary `[1, 2]`, on the row `a = 1, b = 3`. -/
theorem withKeySet_asc_iff_lex_gt_witness :
    1 ≤ ["a", "b"].length ∧ [(1 : Nat), 2].length = ["a", "b"].length ∧
    ∃ p s', WithKeySet ["a", "b"] (some [(1 : Nat), 2]) false (T "t")
        (SelectDataset.Dialect "postgres") = some s' ∧
      s'.where_ = (SelectDataset.Dialect "postgres" : SelectDataset Nat).where_ ++ [p] ∧
      (p.eval (fun i => if i.col = some "a" then 1 else 3) = true ↔
        List.Lex (· < ·) [(1 : Nat), 2]
          (["a", "b"].map (fun c => (fun i : IdentifierExpression =>
            if i.col = some "a" then 1 else 3) ((T "t").Col c)))) :=
  ⟨by decide, rfl, withKeySet_asc_iff_lex_gt ["a", "b"] [(1 : Nat), 2] (by decide) rfl (T "t")
    (SelectDataset.Dialect "postgres") (fun i => if i.col = some "a" then 1 else 3)⟩

/-- C2 at columns `[a, b]`, boundary `[1, 2]`, on the row `a = 1, b = 0`. -/
theorem withKeySet_desc_iff_lex_lt_witness :
    1 ≤ ["a", "b"].length ∧ [(1 : Nat), 2].length = ["a", "b"].length ∧
    ∃ p s', WithKeySet ["a", "b"] (some [(1 : Nat), 2]) true (T "t")
        (SelectDataset.Dialect "postgres") = some s' ∧
      s'.where_ = (SelectDataset.Dialect "postgres" : SelectDataset Nat).where_ ++ [p] ∧
      (p.eval (fun i => if i.col = some "a" then 1 else 0) = true ↔
        List.Lex (· < ·)
          (["a", "b"].map (fun c => (fun i : IdentifierExpression =>
            if i.col = some "a" then 1 else 0) ((T "t").Col c))) [(1 : Nat), 2]) :=
  ⟨by decide, rfl, withKeySet_desc_iff_lex_lt ["a", "b"] [(1 : Nat), 2] (by decide) rfl (T "t")
    (SelectDataset.Dialect "postgres") (fun i => if i.col = some "a" then 1 else 0)⟩

end KeysetPredicate

/-! ## Keyset pagination: shape, ordering, offset -/

section KeysetShape

variable {V : Type}

/-- C4: with at least one column and a boundary as long as the column list, the
predicate added by the option is one OR of exactly `len(columns)` AND groups;
group `i` consists of `i` equalities, the `j`-th being `columns[j] = values[j]`,
followed by one strict inequality on `columns[i]` against `values[i]` (`Lt` when
`desc`, `Gt` otherwise). -/
theorem withKeySet_predicate_shape (columns : List String) (values : List V) (desc : Bool)
    (hN : 1 ≤ columns.length)
    (hlen : values.length = columns.length) (table : IdentifierExpression)
    (s : SelectDataset V) :
    ∃ groups s', WithKeySet columns (some values) desc table s = some s' ∧
      s'.where_ = s.where_ ++ [Or groups] ∧
      groups.length = columns.length ∧
      ∀ (i : Nat) (hi : i < columns.length), ∃ eqs : List (Expression V),
        groups[i]? = some (And (eqs ++
          [if desc then (table.Col columns[i]).Lt values[i]
           else (table.Col columns[i]).Gt values[i]])) ∧
        eqs.length = i ∧
        ∀ (j : Nat) (hj : j < i), eqs[j]? = some ((table.Col columns[j]).Eq values[j]) := by
  refine ⟨lexGroups table desc [] (columns.zip values), _,
    withKeySet_some columns values desc hlen table s,
    where_keyset s table desc columns values hN (by omega), ?_, ?_⟩
  · simp [lexGroups_length, hlen]
  · intro i hi
    have hz : i < (columns.zip values).length := by simp; omega
    refine ⟨((columns.zip values).take i).map (eqTerm table), ?_, ?_, ?_⟩
    · rw [lexGroups_getElem? table desc [] _ i hz]
      simp [strictTerm]
    · simp; omega
    · intro j hj
      have hjz : j < (columns.zip values).length := by omega
      simp [List.getElem?_take, hj, eqTerm, List.getElem?_eq_getElem hjz]

/-- C4 at columns `[a, b]`, boundary `[1, 2]`, ascending: the predicate is
`(a > 1) OR (a = 1 AND b > 2)`. -/
theorem withKeySet_predicate_shape_witness :
    1 ≤ ["a", "b"].length ∧ [(1 : Nat), 2].length = ["a", "b"].length ∧
    ∃ groups s', WithKeySet ["a", "b"] (some [(1 : Nat), 2]) false (T "t")
        (SelectDataset.Dialect "postgres") = some s' ∧
      s'.where_ = [Or groups] ∧
      groups.length = 2 ∧
      groups[0]? = some (And [((T "t").Col "a").Gt 1]) ∧
      groups[1]? = some (And [((T "t").Col "a").Eq 1, ((T "t").Col "b").Gt 2]) := by
  refine ⟨by decide, rfl, ?_⟩
  obtain ⟨groups, s', h1, h2, h3, h4⟩ :=
    withKeySet_predicate_shape ["a", "b"] [(1 : Nat), 2] false (by decide) rfl (T "t")
      (SelectDataset.Dialect "postgres")
  obtain ⟨e0, g0, l0, -⟩ := h4 0 (by decide)
  obtain ⟨e1, g1, l1, j1⟩ := h4 1 (by decide)
  have q1 := j1 0 (by decide)
  refine ⟨groups, s', h1, h2, h3, ?_, ?_⟩
  · match e0, l0 with
    | [], _ => simpa using g0
  · match e1, l1, q1 with
    | [x], _, q1 =>
      have hx : x = ((T "t").Col "a").Eq 1 := by simpa using q1
      subst hx
      simpa using g1

end KeysetShape

section KeysetOrdering

variable {V : Type}

/-- C3 (failing input): on the first page (`values` nil) the option returns before
the offset is cleared; a statement with offset 5 keeps offset 5. -/
theorem withKeySet_first_page_keeps_offset :
    (WithKeySet ["a"] (none : Option (List Nat)) false (T "t")
        ((SelectDataset.Dialect "postgres").Offset 5)).map (fun s => s.offset) = some 5 := by
  rfl

/-- C5: without a boundary the option returns a statement with the WHERE
conjuncts of the input and an ORDER BY of one term per column, in list order, all
descending when `desc` and all ascending otherwise. -/
theorem withKeySet_first_page_order_only (columns : List String) (desc : Bool)
    (table : IdentifierExpression) (s : SelectDataset V) :
    ∃ s', WithKeySet columns (none : Option (List V)) desc table s = some s' ∧
      s'.where_ = s.where_ ∧
      s'.order = columns.map
        (fun c => if desc then (table.Col c).Desc else (table.Col c).Asc) := by
  refine ⟨_, withKeySet_none columns desc table s, rfl, ?_⟩
  simp only [SelectDataset.Order]
  apply List.map_congr_left
  intro c _
  rfl

/-- C6: with the boundary absent or as long as the column list, the ORDER BY set
by the option has one term per column, term `i` being on `table.Col(columns[i])`
with the direction of the flag, and it is the ordering of the first page for the
same columns and flag. -/
theorem withKeySet_order_matches_columns (columns : List String) (values : Option (List V))
    (desc : Bool) (table : IdentifierExpression) (s : SelectDataset V)
    (hwf : values = none ∨ ∃ vs, values = some vs ∧ vs.length = columns.length) :
    ∃ s', WithKeySet columns values desc table s = some s' ∧
      s'.order.length = columns.length ∧
      (∀ (i : Nat) (hi : i < columns.length),
        s'.order[i]? = some ⟨table.Col columns[i],
          if desc then SortDirection.desc else SortDirection.asc⟩) ∧
      (WithKeySet columns (none : Option (List V)) desc table s).map (fun t => t.order)
        = some s'.order := by
  have hterm : ∀ (i : Nat) (hi : i < columns.length),
      (columns.map (orderTerm table desc))[i]? = some ⟨table.Col columns[i],
        if desc then SortDirection.desc else SortDirection.asc⟩ := by
    intro i hi
    rw [List.getElem?_map, List.getElem?_eq_getElem hi]
    cases desc <;> rfl
  rcases hwf with h | ⟨vs, h, hlen⟩
  · subst h
    refine ⟨_, withKeySet_none columns desc table s, ?_, hterm, ?_⟩
    · simp [SelectDataset.Order]
    · rw [withKeySet_none]; rfl
  · subst h
    refine ⟨_, withKeySet_some columns vs desc hlen table s, ?_, hterm, ?_⟩
    · simp [SelectDataset.Order, SelectDataset.ClearOffset]
    · rw [withKeySet_none]; rfl

/-- C6 at columns `[a, b]`, boundary `[1, 2]`, ascending. -/
theorem withKeySet_order_matches_columns_witness :
    ((some [(1 : Nat), 2] = none ∨
      ∃ vs, some [(1 : Nat), 2] = some vs ∧ vs.length = ["a", "b"].length)) ∧
    ∃ s', WithKeySet ["a", "b"] (some [(1 : Nat), 2]) false (T "t")
        (SelectDataset.Dialect "postgres") = some s' ∧
      s'.order.length = ["a", "b"].length ∧
      (∀ (i : Nat) (hi : i < ["a", "b"].length),
        s'.order[i]? = some ⟨(T "t").Col (["a", "b"][i]),
          if false then SortDirection.desc else SortDirection.asc⟩) ∧
      (WithKeySet ["a", "b"] (none : Option (List Nat)) false (T "t")
          (SelectDataset.Dialect "postgres")).map (fun t => t.order)
        = some s'.order :=
  ⟨Or.inr ⟨[1, 2], rfl, rfl⟩,
    withKeySet_order_matches_columns ["a", "b"] (some [1, 2]) false (T "t")
      (SelectDataset.Dialect "postgres") (Or.inr ⟨[1, 2], rfl, rfl⟩)⟩

end KeysetOrdering

/-! ## Building a statement -/

section Build

variable {V : Type}

/-- C7: the options are folded left to right over the initial statement.  Adding
an option `o` at the end applies `o`, with the table identifier, to the result
for the shorter list; the empty list gives the initial statement selecting the
resolved base columns from the table; the result is the left fold of the
options, a panic of an option ending the build. -/
theorem buildSelectDataset_fold (defaultDialect tableName : String) (dst : List StructField)
    (opts : List (SelectOption V)) (o : SelectOption V) :
    BuildSelectDataset defaultDialect tableName dst (opts ++ [o])
        = (BuildSelectDataset defaultDialect tableName dst opts).bind (o (T tableName)) ∧
    BuildSelectDataset defaultDialect tableName dst ([] : List (SelectOption V))
        = some (((SelectDataset.Dialect defaultDialect).Select
            ((getColumnsFromStruct (T tableName) dst skipSelect).map SelectColumn.ident)).From
              (T tableName)) ∧
    BuildSelectDataset defaultDialect tableName dst opts
        = opts.foldl (fun acc o => acc.bind (o (T tableName)))
            (BuildSelectDataset defaultDialect tableName dst []) := by
  refine ⟨?_, ?_, ?_⟩
  · simp only [BuildSelectDataset]
    exact applyOptions_append _ _ _ _
  · simp [BuildSelectDataset, applyOptions, appendFields_eq]
  · simp only [BuildSelectDataset]
    exact applyOptions_eq_foldl _ _ _

/-- C8: the rendering entry point returns the render of the statement that the
dataset entry point returns for the same arguments. -/
theorem buildSelect_eq_toSQL_buildSelectDataset {R : Type} (ToSQL : SelectDataset V → R)
    (defaultDialect tableName : String) (dst : List StructField)
    (opts : List (SelectOption V)) :
    BuildSelect ToSQL defaultDialect tableName dst opts
      = (BuildSelectDataset defaultDialect tableName dst opts).map ToSQL := by
  simp only [BuildSelect, BuildSelectDataset]
  cases applyOptions (T tableName) opts _ <;> rfl

/-- C9: building with `[WithSelectLimit(l), WithSelectOffset(o), WithKeySet(...)]`,
at least one column and a boundary as long as the column list gives a statement
with limit `l`, no offset, the keyset disjunction as its WHERE and the keyset
ordering as its ORDER BY. -/
theorem build_limit_offset_keyset (defaultDialect tableName : String) (dst : List StructField)
    (l o : Nat) (columns : List String) (values : List V) (desc : Bool)
    (hN : 1 ≤ columns.length)
    (hlen : values.length = columns.length) :
    ∃ s', BuildSelectDataset defaultDialect tableName dst
        [WithSelectLimit l, WithSelectOffset o, WithKeySet columns (some values) desc]
          = some s' ∧
      s'.limit = l ∧
      s'.offset = 0 ∧
      s'.where_ = [Or (lexGroups (T tableName) desc [] (columns.zip values))] ∧
      s'.order = columns.map
        (fun c => if desc then ((T tableName).Col c).Desc else ((T tableName).Col c).Asc) := by
  have h : BuildSelectDataset defaultDialect tableName dst
      [WithSelectLimit l, WithSelectOffset o, WithKeySet columns (some values) desc]
        = some ((((((((SelectDataset.Dialect defaultDialect).Select
            (appendFields (getColumnsFromStruct (T tableName) dst skipSelect) [])).From
              (T tableName)).Limit l).Offset o).Where
                [Or (lexGroups (T tableName) desc [] (columns.zip values))]).Order
                  (columns.map (orderTerm (T tableName) desc))).ClearOffset) := by
    simp only [BuildSelectDataset, applyOptions, WithSelectLimit, WithSelectOffset]
    rw [withKeySet_some columns values desc hlen]
  refine ⟨_, h, ?_, rfl, ?_, ?_⟩
  · simp only [SelectDataset.ClearOffset, SelectDataset.Order, SelectDataset.Where,
      SelectDataset.Offset, SelectDataset.Limit]
  · have hw := where_keyset (((((SelectDataset.Dialect defaultDialect).Select
        (appendFields (getColumnsFromStruct (T tableName) dst skipSelect) [])).From
          (T tableName)).Limit l).Offset o) (T tableName) desc columns values hN (by omega)
    simp only [SelectDataset.ClearOffset, SelectDataset.Order]
    rw [hw]
    simp [SelectDataset.Offset, SelectDataset.Limit, SelectDataset.From, select_eq,
      SelectDataset.Dialect]
  · simp only [SelectDataset.ClearOffset, SelectDataset.Order]
    apply List.map_congr_left
    intro c _
    rfl

/-- C9 at `l = 10`, `o = 5`, columns `[a, b]`, boundary `[1, 2]`, ascending. -/
theorem build_limit_offset_keyset_witness :
    1 ≤ ["a", "b"].length ∧ [(1 : Nat), 2].length = ["a", "b"].length ∧
    ∃ s', BuildSelectDataset "postgres" "t" [⟨"a", []⟩, ⟨"b", []⟩]
        [WithSelectLimit 10, WithSelectOffset 5, WithKeySet ["a", "b"] (some [(1 : Nat), 2]) false]
          = some s' ∧
      s'.limit = 10 ∧
      s'.offset = 0 ∧
      s'.where_ = [Or (lexGroups (T "t") false [] (["a", "b"].zip [1, 2]))] ∧
      s'.order = ["a", "b"].map
        (fun c => if false then ((T "t").Col c).Desc else ((T "t").Col c).Asc) :=
  ⟨by decide, rfl, build_limit_offset_keyset "postgres" "t" [⟨"a", []⟩, ⟨"b", []⟩] 10 5
    ["a", "b"] [(1 : Nat), 2] false (by decide) rfl⟩

/-- C10 (counterexample): for a descriptor that resolves to no column the select
list of the result is `*`, not the empty resolved list. -/
theorem joinSelection_empty_descriptor_selects_star :
    ¬ ∃ s', WithInnerJoinSelection [("Users", [])]
        [⟨"Users", JoinCondition.Using ["id"]⟩] (T "t")
        (SelectDataset.Dialect "postgres" : SelectDataset Nat) = some s' ∧
      s'.selectCols
        = (getSelectionFieldsFromSelectionStruct [("Users", [])]).map SelectColumn.ident := by
  rintro ⟨s', h, hsel⟩
  rw [withInnerJoinSelection_eq] at h
  cases h
  simp [getSelectionFieldsFromSelectionStruct] at hsel

/-- C10 (amended): a join selection returns a statement whose joins are those of
the input followed by one inner (resp. left) join per `JoinOp`, in declared
order, on `goqu.T(j.Table)` with condition `j.On`.  Its select list keeps none
of the input's columns: it is exactly the columns resolved from the descriptor,
in the resolver's order, when there is at least one, and `*` when the descriptor
resolves to no column.  For the descriptor `{Users: {ID, Name}, Orders: {Total}}`
with two joins the select list is `[Users.ID, Users.Name, Orders.Total]`. -/
theorem joinSelection_joins_and_projection (D : SelectionStruct) (op : List (JoinOp V))
    (table : IdentifierExpression) (s : SelectDataset V) (on₁ on₂ : JoinCondition V) :
    (∃ s', WithInnerJoinSelection D op table s = some s' ∧
      s'.joins = s.joins ++ op.map (fun j => ⟨JoinType.innerJoin, T j.Table, j.On⟩) ∧
      s'.selectCols =
        if (getSelectionFieldsFromSelectionStruct D).map SelectColumn.ident = []
        then [SelectColumn.star]
        else (getSelectionFieldsFromSelectionStruct D).map SelectColumn.ident) ∧
    (∃ s', WithLeftJoinSelection D op table s = some s' ∧
      s'.joins = s.joins ++ op.map (fun j => ⟨JoinType.leftJoin, T j.Table, j.On⟩) ∧
      s'.selectCols =
        if (getSelectionFieldsFromSelectionStruct D).map SelectColumn.ident = []
        then [SelectColumn.star]
        else (getSelectionFieldsFromSelectionStruct D).map SelectColumn.ident) ∧
    (∃ s', WithInnerJoinSelection [("Users", ["ID", "Name"]), ("Orders", ["Total"])]
        [⟨"Users", on₁⟩, ⟨"Orders", on₂⟩] table s = some s' ∧
      s'.joins = s.joins ++ [⟨JoinType.innerJoin, T "Users", on₁⟩,
        ⟨JoinType.innerJoin, T "Orders", on₂⟩] ∧
      s'.selectCols = [SelectColumn.ident ((T "Users").Col "ID"),
        SelectColumn.ident ((T "Users").Col "Name"),
        SelectColumn.ident ((T "Orders").Col "Total")]) :=
  ⟨⟨_, withInnerJoinSelection_eq D op table s, rfl, rfl⟩,
    ⟨_, withLeftJoinSelection_eq D op table s, rfl, rfl⟩,
    ⟨_, withInnerJoinSelection_eq _ _ table s, rfl, rfl⟩⟩

end Build

/-! ## Boundary length: panics and surplus values -/

section BoundaryLength

variable {V : Type}

theorem keySetLoop_eq_of_le (table : IdentifierExpression) (columns : List String)
    (values : List V) (desc : Bool) (hle : columns.length ≤ values.length)
    (k i : Nat) (conditions : List (Expression V)) (orderby : List OrderedExpression)
    (hk : i + k = columns.length) :
    keySetLoop table columns values desc k i conditions orderby
      = some (conditions ++ lexGroups table desc (((columns.zip values).take i).map (eqTerm table))
                ((columns.zip values).drop i),
              orderby ++ (columns.drop i).map (orderTerm table desc)) := by
  induction k generalizing i conditions orderby with
  | zero =>
    have hz : (columns.zip values).drop i = [] := by
      apply List.drop_of_length_le; simp; omega
    have hcd : columns.drop i = [] := List.drop_of_length_le (by omega)
    simp [keySetLoop, hz, hcd, lexGroups]
  | succ k ih =>
    have hic : i < columns.length := by omega
    have hiv : i < values.length := by omega
    have hz : i < (columns.zip values).length := by simp; omega
    have hd : (columns.zip values).drop i
        = (columns[i], values[i]) :: (columns.zip values).drop (i + 1) := by
      rw [List.drop_eq_getElem_cons hz]; simp
    have ht : (columns.zip values).take (i + 1)
        = (columns.zip values).take i ++ [(columns[i], values[i])] := by
      rw [List.take_succ, List.getElem?_eq_getElem hz]; simp
    have hcd : columns.drop i = columns[i] :: columns.drop (i + 1) :=
      List.drop_eq_getElem_cons hic
    have he := eqLoop_eq table columns values i 0 [] (by omega) (by omega)
    simp only [List.drop_zero, List.nil_append] at he
    simp only [keySetLoop, he, List.getElem?_eq_getElem hic, List.getElem?_eq_getElem hiv]
    rw [hd, hcd]
    cases desc
    · rw [if_neg (by decide), ih (i + 1) _ _ (by omega), ht]
      simp only [lexGroups, strictTerm, orderTerm, eqTerm, List.map_append, List.map_cons,
        List.map_nil, List.append_assoc, List.singleton_append, Bool.false_eq_true, if_false]
    · rw [if_pos rfl, ih (i + 1) _ _ (by omega), ht]
      simp only [lexGroups, strictTerm, orderTerm, eqTerm, List.map_append, List.map_cons,
        List.map_nil, List.append_assoc, List.singleton_append, if_true]

/-- A boundary at least as long as the column list: the option returns, and only
the values paired with a column enter the predicate. -/
theorem withKeySet_some_of_le (columns : List String) (values : List V) (desc : Bool)
    (hle : columns.length ≤ values.length) (table : IdentifierExpression)
    (s : SelectDataset V) :
    WithKeySet columns (some values) desc table s
      = some (((s.Where [Or (lexGroups table desc [] (columns.zip values))]).Order
          (columns.map (orderTerm table desc))).ClearOffset) := by
  have h := keySetLoop_eq_of_le table columns values desc hle columns.length 0 [] [] (by omega)
  simp only [List.take_zero, List.map_nil, List.drop_zero, List.nil_append] at h
  simp [WithKeySet, h]

/-- The outer loop panics when the boundary ends before the columns do: the
iteration `i = len(values)` reads `values[i]` out of range. -/
theorem keySetLoop_none (table : IdentifierExpression) (columns : List String)
    (values : List V) (desc : Bool)
    (k i : Nat) (conditions : List (Expression V)) (orderby : List OrderedExpression)
    (hk : i + k ≤ columns.length) (hi : i ≤ values.length) (hv : values.length < i + k) :
    keySetLoop table columns values desc k i conditions orderby = none := by
  induction k generalizing i conditions orderby with
  | zero => omega
  | succ k ih =>
    have hic : i < columns.length := by omega
    have he := eqLoop_eq table columns values i 0 [] (by omega) (by omega)
    simp only [keySetLoop, he, List.getElem?_eq_getElem hic]
    by_cases hiv : i < values.length
    · simp only [List.getElem?_eq_getElem hiv]
      cases desc
      · rw [if_neg (by decide)]
        exact ih (i + 1) _ _ (by omega) (by omega) (by omega)
      · rw [if_pos rfl]
        exact ih (i + 1) _ _ (by omega) (by omega) (by omega)
    · have hnone : values[i]? = none := List.getElem?_eq_none (by omega)
      simp only [hnone]

theorem withKeySet_short (columns : List String) (values : List V) (desc : Bool)
    (hlt : values.length < columns.length) (table : IdentifierExpression)
    (s : SelectDataset V) :
    WithKeySet columns (some values) desc table s = none := by
  have h := keySetLoop_none table columns values desc columns.length 0 [] []
    (by omega) (by omega) (by omega)
  simp [WithKeySet, h]

theorem zip_take_length (columns : List String) (values : List V) :
    columns.zip (values.take columns.length) = columns.zip values := by
  induction columns generalizing values with
  | nil => simp
  | cons c cs ih =>
    cases values with
    | nil => simp
    | cons v vs => simp [ih vs]

/-- C13: with the boundary absent, or present and as long as the column list, no
access `columns[j]` or `values[j]` of the loops is out of range: the option
returns a statement. -/
theorem withKeySet_wellFormed_returns (columns : List String) (values : Option (List V))
    (desc : Bool) (table : IdentifierExpression) (s : SelectDataset V)
    (hwf : values = none ∨ ∃ vs, values = some vs ∧ vs.length = columns.length) :
    (WithKeySet columns values desc table s).isSome = true ∧
      (∀ vs, values = some vs →
        (keySetLoop table columns vs desc columns.length 0 [] []).isSome = true ∧
        ∀ i, i < columns.length →
          (eqLoop table columns vs i 0 []).isSome = true ∧
          (columns[i]?).isSome = true ∧ (vs[i]?).isSome = true) := by
  rcases hwf with h | ⟨vs, h, hlen⟩
  · subst h
    refine ⟨by rw [withKeySet_none]; rfl, ?_⟩
    intro vs hvs
    cases hvs
  · subst h
    refine ⟨by rw [withKeySet_some columns vs desc hlen]; rfl, ?_⟩
    intro ws hws
    cases hws
    refine ⟨?_, ?_⟩
    · rw [keySetLoop_eq table columns vs desc hlen columns.length 0 [] [] (by omega)]
      rfl
    · intro i hi
      have hiv : i < vs.length := by omega
      refine ⟨?_, ?_, ?_⟩
      · rw [eqLoop_eq table columns vs i 0 [] (by omega) (by omega)]
        rfl
      · rw [List.getElem?_eq_getElem hi]; rfl
      · rw [List.getElem?_eq_getElem hiv]; rfl

/-- C13 at columns `[a, b]`, boundary `[1, 2]`, ascending. -/
theorem withKeySet_wellFormed_returns_witness :
    ((some [(1 : Nat), 2] = none ∨
      ∃ vs, some [(1 : Nat), 2] = some vs ∧ vs.length = ["a", "b"].length)) ∧
    (WithKeySet ["a", "b"] (some [(1 : Nat), 2]) false (T "t")
        (SelectDataset.Dialect "postgres")).isSome = true :=
  ⟨Or.inr ⟨[1, 2], rfl, rfl⟩,
    (withKeySet_wellFormed_returns ["a", "b"] (some [(1 : Nat), 2]) false (T "t")
      (SelectDataset.Dialect "postgres") (Or.inr ⟨[1, 2], rfl, rfl⟩)).1⟩

/-- C16: the option panics with an index out of range exactly when the boundary
is non-nil and shorter than the column list.  A non-nil empty boundary with at
least one column panics, while the first page for the same columns returns; a
boundary at least as long as the column list does not panic and gives the result
of the boundary cut to the number of columns. -/
theorem withKeySet_panics_iff_short (columns : List String) (values : Option (List V))
    (desc : Bool) (table : IdentifierExpression) (s : SelectDataset V) :
    (WithKeySet columns values desc table s = none ↔
      ∃ vs, values = some vs ∧ vs.length < columns.length) ∧
    (∀ (c : String) (cs : List String),
      WithKeySet (c :: cs) (some ([] : List V)) desc table s = none ∧
      (WithKeySet (c :: cs) (none : Option (List V)) desc table s).isSome = true) ∧
    (∀ vs : List V, WithKeySet columns (some vs) desc table s
      = if vs.length < columns.length then none
        else WithKeySet columns (some (vs.take columns.length)) desc table s) := by
  have hshort_or : ∀ vs : List V, WithKeySet columns (some vs) desc table s
      = if vs.length < columns.length then none
        else WithKeySet columns (some (vs.take columns.length)) desc table s := by
    intro vs
    by_cases hlt : vs.length < columns.length
    · rw [if_pos hlt]
      exact withKeySet_short columns vs desc hlt table s
    · rw [if_neg hlt]
      have hle : columns.length ≤ vs.length := by omega
      rw [withKeySet_some_of_le columns vs desc hle,
        withKeySet_some_of_le columns (vs.take columns.length) desc (by simp; omega),
        zip_take_length]
  refine ⟨?_, ?_, hshort_or⟩
  · constructor
    · intro hnone
      cases values with
      | none => rw [withKeySet_none] at hnone; cases hnone
      | some vs =>
        refine ⟨vs, rfl, ?_⟩
        by_contra hge
        rw [withKeySet_some_of_le columns vs desc (by omega)] at hnone
        cases hnone
    · rintro ⟨vs, rfl, hlt⟩
      exact withKeySet_short columns vs desc hlt table s
  · intro c cs
    refine ⟨withKeySet_short (c :: cs) [] desc (by simp) table s, ?_⟩
    rw [withKeySet_none]; rfl

end BoundaryLength

/-! ## Join selection against the other options -/

section Commute

variable {V : Type}

/-- The keyset option in one formula, for every boundary. -/
theorem withKeySet_cases (columns : List String) (values : Option (List V)) (desc : Bool)
    (table : IdentifierExpression) (s : SelectDataset V) :
    WithKeySet columns values desc table s
      = match values with
        | none => some (s.Order (columns.map (orderTerm table desc)))
        | some vs =>
          if vs.length < columns.length then none
          else some (((s.Where [Or (lexGroups table desc [] (columns.zip vs))]).Order
            (columns.map (orderTerm table desc))).ClearOffset) := by
  cases values with
  | none => exact withKeySet_none columns desc table s
  | some vs =>
    by_cases hlt : vs.length < columns.length
    · simp only [if_pos hlt]
      exact withKeySet_short columns vs desc hlt table s
    · simp only [if_neg hlt]
      exact withKeySet_some_of_le columns vs desc (by omega) table s

/-- C11: a join selection `J` (inner or left) and an option `P` built by
`WithSelectFilters`, `WithSelectLimit`, `WithSelectOffset`, `WithSelectOrder` or
`WithKeySet` commute: applying `J` then `P` and applying `P` then `J` give the
same result, hence the same select list, joins, predicates, ordering, limit and
offset (and both panic when `P` does). -/
theorem joinSelection_commutes (J P : SelectOption V)
    (hJ : ∃ D op, J = WithInnerJoinSelection D op ∨ J = WithLeftJoinSelection D op)
    (hP : (∃ filters, P = WithSelectFilters filters) ∨ (∃ l, P = WithSelectLimit l) ∨
      (∃ o, P = WithSelectOffset o) ∨ (∃ order, P = WithSelectOrder order) ∨
      (∃ columns values desc, P = WithKeySet columns values desc))
    (table : IdentifierExpression) (s : SelectDataset V) :
    (J table s).bind (P table) = (P table s).bind (J table) := by
  obtain ⟨D, op, hJ⟩ := hJ
  have hJs : ∃ (jt : JoinType), ∀ s : SelectDataset V, J table s
      = some { s with
          joins := s.joins ++ op.map (fun j => ⟨jt, T j.Table, j.On⟩),
          selectCols :=
            if (getSelectionFieldsFromSelectionStruct D).map SelectColumn.ident = []
            then [SelectColumn.star]
            else (getSelectionFieldsFromSelectionStruct D).map SelectColumn.ident } := by
    rcases hJ with rfl | rfl
    · exact ⟨JoinType.innerJoin, fun s => withInnerJoinSelection_eq D op table s⟩
    · exact ⟨JoinType.leftJoin, fun s => withLeftJoinSelection_eq D op table s⟩
  obtain ⟨jt, hJs⟩ := hJs
  rcases hP with ⟨f, rfl⟩ | ⟨l, rfl⟩ | ⟨o, rfl⟩ | ⟨order, rfl⟩ | ⟨columns, values, desc, rfl⟩
  · simp [hJs, WithSelectFilters, SelectDataset.Where]
  · simp [hJs, WithSelectLimit, SelectDataset.Limit]
  · simp [hJs, WithSelectOffset, SelectDataset.Offset]
  · simp [hJs, WithSelectOrder, SelectDataset.Order]
  · rw [hJs, Option.some_bind, withKeySet_cases, withKeySet_cases]
    cases values with
    | none => simp [hJs, SelectDataset.Order]
    | some vs =>
      by_cases hlt : vs.length < columns.length
      · simp [hlt]
      · simp [hlt, hJs, SelectDataset.Order, SelectDataset.Where, SelectDataset.ClearOffset]

/-- C11 at an inner join selection with two joins and the keyset option on
column `a` with boundary `[1]`. -/
theorem joinSelection_commutes_witness :
    ((WithInnerJoinSelection [("Users", ["ID", "Name"]), ("Orders", ["Total"])]
        [⟨"Users", JoinCondition.Using ["id"]⟩, ⟨"Orders", JoinCondition.Using ["user_id"]⟩]
        (T "t") (SelectDataset.Dialect "postgres")).bind
      ((WithKeySet ["a"] (some [(1 : Nat)]) false : SelectOption Nat) (T "t")))
    = ((WithKeySet ["a"] (some [(1 : Nat)]) false : SelectOption Nat) (T "t")
        (SelectDataset.Dialect "postgres")).bind
      (WithInnerJoinSelection [("Users", ["ID", "Name"]), ("Orders", ["Total"])]
        [⟨"Users", JoinCondition.Using ["id"]⟩, ⟨"Orders", JoinCondition.Using ["user_id"]⟩]
        (T "t")) :=
  joinSelection_commutes _ _ ⟨_, _, Or.inl rfl⟩
    (Or.inr (Or.inr (Or.inr (Or.inr ⟨_, _, _, rfl⟩)))) (T "t") (SelectDataset.Dialect "postgres")

end Commute

/-! ## Empty column list, both directions, frame -/

section KeysetFrame

variable {V : Type}

/-- C12: for an empty column list, for every boundary (nil, or non-nil of any
length) and flag, the option returns a statement whose WHERE conjuncts are those
of the input (the empty `goqu.Or()` it passes with a non-nil boundary is dropped
by `Where`) and whose ORDER BY list has zero terms. -/
theorem withKeySet_empty_columns (values : Option (List V)) (desc : Bool)
    (table : IdentifierExpression) (s : SelectDataset V) :
    ∃ s', WithKeySet [] values desc table s = some s' ∧
      s'.where_ = s.where_ ∧
      s'.order = [] := by
  cases values with
  | none => exact ⟨_, withKeySet_none [] desc table s, rfl, rfl⟩
  | some vs =>
    exact ⟨_, withKeySet_some_of_le [] vs desc (by simp) table s,
      where_keyset_nil s table desc vs, rfl⟩

/-- C15 (counterexample): with no column and the non-nil empty boundary, which is
as long as the column list, the option adds no conjunct: the WHERE of the result
is not that of the input followed by one new conjunct. -/
theorem zeroColumns_boundary_adds_no_conjunct :
    ¬ ∃ s' p, WithKeySet [] (some ([] : List Nat)) false (T "t")
        ((SelectDataset.Dialect "postgres").Where [((T "t").Col "a").Eq 1]) = some s' ∧
      s'.where_
        = ((SelectDataset.Dialect "postgres" : SelectDataset Nat).Where
            [((T "t").Col "a").Eq 1]).where_ ++ [p] := by
  rintro ⟨s', p, h, hw⟩
  rw [withKeySet_some_of_le [] [] false (by simp)] at h
  cases h
  have hl := congrArg List.length hw
  simp [SelectDataset.Where, SelectDataset.Order, SelectDataset.ClearOffset,
    SelectDataset.Dialect, lexGroups, Or, Expression.IsEmpty,
    IdentifierExpression.Eq] at hl

/-- C15 (amended): with the boundary absent or as long as the column list the
option returns a statement with the select list, source table, joins and limit
of the input.  Its WHERE conjuncts are those of the input, in place, followed by
exactly one new conjunct, the keyset disjunction, when there is a boundary and at
least one column, and by nothing when there is no boundary or no column. -/
theorem withKeySet_frame (columns : List String) (values : Option (List V)) (desc : Bool)
    (table : IdentifierExpression) (s : SelectDataset V)
    (hwf : values = none ∨ ∃ vs, values = some vs ∧ vs.length = columns.length) :
    ∃ s', WithKeySet columns values desc table s = some s' ∧
      s'.selectCols = s.selectCols ∧
      s'.from_ = s.from_ ∧
      s'.joins = s.joins ∧
      s'.limit = s.limit ∧
      s'.where_ = s.where_ ++ (match values with
        | none => []
        | some vs =>
          if columns = [] then []
          else [Or (lexGroups table desc [] (columns.zip vs))]) := by
  rcases hwf with h | ⟨vs, h, hlen⟩
  · subst h
    exact ⟨_, withKeySet_none columns desc table s, rfl, rfl, rfl, rfl,
      by simp [SelectDataset.Order]⟩
  · subst h
    refine ⟨_, withKeySet_some columns vs desc hlen table s, rfl, rfl, rfl, rfl, ?_⟩
    by_cases hc : columns = []
    · subst hc
      simp only [if_true, List.append_nil]
      exact where_keyset_nil s table desc vs
    · have hN : 1 ≤ columns.length := by
        cases columns with
        | nil => exact absurd rfl hc
        | cons c cs => simp
      simp only [if_neg hc]
      exact where_keyset s table desc columns vs hN (by omega)

/-- C15 at columns `[a, b]`, boundary `[1, 2]`, ascending, on a statement with a
limit and a filter. -/
theorem withKeySet_frame_witness :
    ((some [(1 : Nat), 2] = none ∨
      ∃ vs, some [(1 : Nat), 2] = some vs ∧ vs.length = ["a", "b"].length)) ∧
    ∃ s', WithKeySet ["a", "b"] (some [(1 : Nat), 2]) false (T "t")
        (((SelectDataset.Dialect "postgres").Limit 10).Where [((T "t").Col "c").Eq 7]) = some s' ∧
      s'.selectCols = (((SelectDataset.Dialect "postgres" : SelectDataset Nat).Limit 10).Where
        [((T "t").Col "c").Eq 7]).selectCols ∧
      s'.from_ = (((SelectDataset.Dialect "postgres" : SelectDataset Nat).Limit 10).Where
        [((T "t").Col "c").Eq 7]).from_ ∧
      s'.joins = (((SelectDataset.Dialect "postgres" : SelectDataset Nat).Limit 10).Where
        [((T "t").Col "c").Eq 7]).joins ∧
      s'.limit = (((SelectDataset.Dialect "postgres" : SelectDataset Nat).Limit 10).Where
        [((T "t").Col "c").Eq 7]).limit ∧
      s'.where_ = (((SelectDataset.Dialect "postgres" : SelectDataset Nat).Limit 10).Where
        [((T "t").Col "c").Eq 7]).where_ ++
          (if ["a", "b"] = [] then []
           else [Or (lexGroups (T "t") false [] (["a", "b"].zip [1, 2]))]) :=
  ⟨Or.inr ⟨[1, 2], rfl, rfl⟩,
    withKeySet_frame ["a", "b"] (some [(1 : Nat), 2]) false (T "t")
      (((SelectDataset.Dialect "postgres").Limit 10).Where [((T "t").Col "c").Eq 7])
      (Or.inr ⟨[1, 2], rfl, rfl⟩)⟩

end KeysetFrame

section KeysetDirections

variable {V : Type} [LinearOrder V]

/-- Two lists of equal length over a linear order: exactly one of "first below
second", "second below first" (lexicographically) and "equal" holds. -/
theorem lex_exactly_one {α : Type} [LinearOrder α] (l₁ l₂ : List α)
    (hlen : l₁.length = l₂.length) :
    (List.Lex (· < ·) l₁ l₂ ∧ ¬ List.Lex (· < ·) l₂ l₁ ∧ l₂ ≠ l₁) ∨
    (¬ List.Lex (· < ·) l₁ l₂ ∧ List.Lex (· < ·) l₂ l₁ ∧ l₂ ≠ l₁) ∨
    (¬ List.Lex (· < ·) l₁ l₂ ∧ ¬ List.Lex (· < ·) l₂ l₁ ∧ l₂ = l₁) := by
  induction l₁ generalizing l₂ with
  | nil =>
    cases l₂ with
    | nil =>
      refine Or.inr (Or.inr ⟨?_, ?_, rfl⟩) <;> intro h <;> cases h
    | cons b l₂ => simp at hlen
  | cons a l₁ ih =>
    cases l₂ with
    | nil => simp at hlen
    | cons b l₂ =>
      have hlen' : l₁.length = l₂.length := by simpa using hlen
      simp only [lex_cons_cons_iff, List.cons.injEq, ne_eq, not_and, not_or]
      rcases lt_trichotomy a b with hab | hab | hab
      · refine Or.inl ⟨Or.inl hab, ⟨not_lt_of_lt hab, fun h => absurd h.symm (ne_of_lt hab)⟩,
          fun h => absurd h.symm (ne_of_lt hab)⟩
      · subst hab
        rcases ih l₂ hlen' with ⟨h1, h2, h3⟩ | ⟨h1, h2, h3⟩ | ⟨h1, h2, h3⟩
        · exact Or.inl ⟨Or.inr ⟨rfl, h1⟩, ⟨lt_irrefl a, fun _ => h2⟩, fun _ => h3⟩
        · exact Or.inr (Or.inl ⟨⟨lt_irrefl a, fun _ => h1⟩, Or.inr ⟨rfl, h2⟩, fun _ => h3⟩)
        · exact Or.inr (Or.inr ⟨⟨lt_irrefl a, fun _ => h1⟩, ⟨lt_irrefl a, fun _ => h2⟩,
            rfl, h3⟩)
      · refine Or.inr (Or.inl ⟨⟨not_lt_of_lt hab, fun h => absurd h (ne_of_lt hab).symm⟩,
          Or.inl hab, fun h => absurd h (ne_of_lt hab)⟩)

theorem eval_keyset_asc (columns : List String) (values : List V)
    (hlen : values.length = columns.length) (table : IdentifierExpression)
    (row : IdentifierExpression → V) :
    (Or (lexGroups table false [] (columns.zip values))).eval row = true ↔
      List.Lex (· < ·) values (columns.map (fun c => row (table.Col c))) := by
  have h := evalAny_lexGroups_asc row table [] (columns.zip values)
  rw [zip_map_snd columns values hlen,
    zip_map_fst (fun c => row (table.Col c)) columns values hlen] at h
  simpa [Or, Expression.eval, Expression.evalAll] using h

theorem eval_keyset_desc (columns : List String) (values : List V)
    (hlen : values.length = columns.length) (table : IdentifierExpression)
    (row : IdentifierExpression → V) :
    (Or (lexGroups table true [] (columns.zip values))).eval row = true ↔
      List.Lex (· < ·) (columns.map (fun c => row (table.Col c))) values := by
  have h := evalAny_lexGroups_desc row table [] (columns.zip values)
  rw [zip_map_snd columns values hlen,
    zip_map_fst (fun c => row (table.Col c)) columns values hlen] at h
  simpa [Or, Expression.eval, Expression.evalAll] using h

/-- C14 (counterexample): with no column and the empty boundary both directions
return the WHERE of the input unchanged, so the predicate each adds (the
conjunction of the conjuncts it appends, here none) is true on every row, and the
row's empty tuple equals the boundary: all three alternatives hold at once, not
exactly one. -/
theorem zeroColumns_directions_not_exclusive :
    (∃ sa sd,
      WithKeySet [] (some ([] : List Nat)) false (T "t")
          (SelectDataset.Dialect "postgres") = some sa ∧
      sa.where_ = (SelectDataset.Dialect "postgres" : SelectDataset Nat).where_ ∧
      WithKeySet [] (some ([] : List Nat)) true (T "t")
          (SelectDataset.Dialect "postgres") = some sd ∧
      sd.where_ = (SelectDataset.Dialect "postgres" : SelectDataset Nat).where_ ∧
      ([] : List String).map (fun c => (fun _ : IdentifierExpression => (0 : Nat))
        ((T "t").Col c)) = []) ∧
    ¬ ∃ sa sd added₁ added₂,
      WithKeySet [] (some ([] : List Nat)) false (T "t")
          (SelectDataset.Dialect "postgres") = some sa ∧
      sa.where_ = (SelectDataset.Dialect "postgres" : SelectDataset Nat).where_ ++ added₁ ∧
      WithKeySet [] (some ([] : List Nat)) true (T "t")
          (SelectDataset.Dialect "postgres") = some sd ∧
      sd.where_ = (SelectDataset.Dialect "postgres" : SelectDataset Nat).where_ ++ added₂ ∧
      ((Expression.evalAll (fun _ => 0) added₁ = true ∧
          ¬ Expression.evalAll (fun _ => 0) added₂ = true ∧
          ([] : List String).map (fun c => (fun _ : IdentifierExpression => (0 : Nat))
            ((T "t").Col c)) ≠ []) ∨
        (¬ Expression.evalAll (fun _ => 0) added₁ = true ∧
          Expression.evalAll (fun _ => 0) added₂ = true ∧
          ([] : List String).map (fun c => (fun _ : IdentifierExpression => (0 : Nat))
            ((T "t").Col c)) ≠ []) ∨
        (¬ Expression.evalAll (fun _ => 0) added₁ = true ∧
          ¬ Expression.evalAll (fun _ => 0) added₂ = true ∧
          ([] : List String).map (fun c => (fun _ : IdentifierExpression => (0 : Nat))
            ((T "t").Col c)) = [])) := by
  have key : ∀ sa sd added₁ added₂,
      WithKeySet [] (some ([] : List Nat)) false (T "t")
          (SelectDataset.Dialect "postgres") = some sa →
      sa.where_ = (SelectDataset.Dialect "postgres" : SelectDataset Nat).where_ ++ added₁ →
      WithKeySet [] (some ([] : List Nat)) true (T "t")
          (SelectDataset.Dialect "postgres") = some sd →
      sd.where_ = (SelectDataset.Dialect "postgres" : SelectDataset Nat).where_ ++ added₂ →
      added₁ = [] ∧ added₂ = [] := by
    intro sa sd added₁ added₂ ha hwa hd hwd
    rw [withKeySet_some_of_le [] [] false (by simp)] at ha
    rw [withKeySet_some_of_le [] [] true (by simp)] at hd
    cases ha
    cases hd
    constructor
    · simpa [SelectDataset.Where, SelectDataset.Order, SelectDataset.ClearOffset,
        SelectDataset.Dialect, lexGroups, Or, Expression.IsEmpty] using hwa.symm
    · simpa [SelectDataset.Where, SelectDataset.Order, SelectDataset.ClearOffset,
        SelectDataset.Dialect, lexGroups, Or, Expression.IsEmpty] using hwd.symm
  constructor
  · exact ⟨_, _, withKeySet_some_of_le [] [] false (by simp) _ _, rfl,
      withKeySet_some_of_le [] [] true (by simp) _ _, rfl, rfl⟩
  · rintro ⟨sa, sd, added₁, added₂, ha, hwa, hd, hwd, hone⟩
    obtain ⟨h1, h2⟩ := key sa sd added₁ added₂ ha hwa hd hwd
    subst h1
    subst h2
    rcases hone with ⟨-, h, -⟩ | ⟨h, -, -⟩ | ⟨h, -, -⟩
    · exact h rfl
    · exact h rfl
    · exact h rfl

/-- C14 (amended): for at least one column, a boundary as long as the column list
and any row, exactly one holds: the predicate added with `desc = false` is true
on the row, the predicate added with `desc = true` is true on the row, or the
row's tuple on the cursor columns equals the boundary.  A row equal to the
boundary satisfies neither predicate. -/
theorem keyset_directions_exactly_one (columns : List String) (values : List V)
    (hN : 1 ≤ columns.length)
    (hlen : values.length = columns.length) (table : IdentifierExpression)
    (s : SelectDataset V) (row : IdentifierExpression → V) :
    ∃ pa pd sa sd,
      WithKeySet columns (some values) false table s = some sa ∧
      sa.where_ = s.where_ ++ [pa] ∧
      WithKeySet columns (some values) true table s = some sd ∧
      sd.where_ = s.where_ ++ [pd] ∧
      ((pa.eval row = true ∧ ¬ pd.eval row = true ∧
          columns.map (fun c => row (table.Col c)) ≠ values) ∨
        (¬ pa.eval row = true ∧ pd.eval row = true ∧
          columns.map (fun c => row (table.Col c)) ≠ values) ∨
        (¬ pa.eval row = true ∧ ¬ pd.eval row = true ∧
          columns.map (fun c => row (table.Col c)) = values)) ∧
      (columns.map (fun c => row (table.Col c)) = values →
        pa.eval row = false ∧ pd.eval row = false) := by
  refine ⟨Or (lexGroups table false [] (columns.zip values)),
    Or (lexGroups table true [] (columns.zip values)), _, _,
    withKeySet_some columns values false hlen table s,
    where_keyset s table false columns values hN (by omega),
    withKeySet_some columns values true hlen table s,
    where_keyset s table true columns values hN (by omega), ?_, ?_⟩
  · rw [eval_keyset_asc columns values hlen, eval_keyset_desc columns values hlen]
    exact lex_exactly_one values _ (by simp [hlen])
  · intro heq
    have ha := eval_keyset_asc columns values hlen table row
    have hd := eval_keyset_desc columns values hlen table row
    rcases lex_exactly_one values (columns.map (fun c => row (table.Col c)))
        (by simp [hlen]) with ⟨-, -, h3⟩ | ⟨-, -, h3⟩ | ⟨h1, h2, -⟩
    · exact absurd heq h3
    · exact absurd heq h3
    · exact ⟨by simpa using mt ha.mp h1, by simpa using mt hd.mp h2⟩

/-- C14 at columns `[a, b]`, boundary `[1, 2]`, on the boundary row `a = 1, b = 2`. -/
theorem keyset_directions_exactly_one_witness :
    1 ≤ ["a", "b"].length ∧ [(1 : Nat), 2].length = ["a", "b"].length ∧
    ∃ pa pd sa sd,
      WithKeySet ["a", "b"] (some [(1 : Nat), 2]) false (T "t")
        (SelectDataset.Dialect "postgres") = some sa ∧
      sa.where_ = (SelectDataset.Dialect "postgres" : SelectDataset Nat).where_ ++ [pa] ∧
      WithKeySet ["a", "b"] (some [(1 : Nat), 2]) true (T "t")
        (SelectDataset.Dialect "postgres") = some sd ∧
      sd.where_ = (SelectDataset.Dialect "postgres" : SelectDataset Nat).where_ ++ [pd] ∧
      ((pa.eval (fun i => if i.col = some "a" then 1 else 2) = true ∧
          ¬ pd.eval (fun i => if i.col = some "a" then 1 else 2) = true ∧
          ["a", "b"].map (fun c => (fun i : IdentifierExpression =>
            if i.col = some "a" then 1 else 2) ((T "t").Col c)) ≠ [1, 2]) ∨
        (¬ pa.eval (fun i => if i.col = some "a" then 1 else 2) = true ∧
          pd.eval (fun i => if i.col = some "a" then 1 else 2) = true ∧
          ["a", "b"].map (fun c => (fun i : IdentifierExpression =>
            if i.col = some "a" then 1 else 2) ((T "t").Col c)) ≠ [1, 2]) ∨
        (¬ pa.eval (fun i => if i.col = some "a" then 1 else 2) = true ∧
          ¬ pd.eval (fun i => if i.col = some "a" then 1 else 2) = true ∧
          ["a", "b"].map (fun c => (fun i : IdentifierExpression =>
            if i.col = some "a" then 1 else 2) ((T "t").Col c)) = [1, 2])) ∧
      (["a", "b"].map (fun c => (fun i : IdentifierExpression =>
            if i.col = some "a" then 1 else 2) ((T "t").Col c)) = [1, 2] →
        pa.eval (fun i => if i.col = some "a" then 1 else 2) = false ∧
        pd.eval (fun i => if i.col = some "a" then 1 else 2) = false) :=
  ⟨by decide, rfl, keyset_directions_exactly_one ["a", "b"] [(1 : Nat), 2] (by decide) rfl
    (T "t") (SelectDataset.Dialect "postgres") (fun i => if i.col = some "a" then 1 else 2)⟩

end KeysetDirections

end Goqux
